import Mathlib

/-!
Shallow embedding of the `cpp_server` vector-store service of the
`pdf_translator` repository (files `vector_db.hpp`, `vector_db.cpp`,
`embedder.hpp`, the embedder implementation, `server.hpp`, `server.cpp`),
together with theorems settling the specification claims about it.

Modelling conventions:
* C++ `std::string` keys are Lean `String`; text processed byte-by-byte by the
  embedder is modelled as `List Char` obtained from `String.data` (the code
  iterates over `char`s; for the ASCII range treated by `isalnum`/`tolower`
  with the default locale the two coincide).
* `float` arithmetic is idealised: scores are exact rationals `ℚ`, and the
  embedder's normalisation (which involves `sqrt`) is stated over `ℝ`.
* `std::unordered_map` is modelled as an association list with no duplicate
  keys; every operation used by the code (find, `operator[]`, assignment,
  erase) acts on the first matching key, which under the no-duplicate
  invariant is the only one.
* `std::sort` with the strict comparator `a.first > b.first` produces some
  permutation of its input that is pairwise sorted under `≥` on scores; the
  tie-break order is unspecified.  We model it by `List.insertionSort` with
  the non-strict descending relation, one such permutation.
* `std::hash<std::string>` is implementation defined; the embedder is
  parametrised by an arbitrary hash function `String → ℕ`.
* the nlohmann JSON library is external to the repository: parsing of raw
  bytes is an uninterpreted parameter, and decoded documents are values of
  the `Json` inductive below.  A thrown `nlohmann` exception (`type_error`
  from `get_ref`/`value`, `parse_error` from `parse`) is modelled by
  `Except.error`; `server.cpp` catches these in `handle_connection`.
-/

/-- Decoded structured document (the nlohmann JSON value model). -/
inductive Json where
  | null : Json
  | bool (b : Bool) : Json
  | num (q : ℚ) : Json
  | str (s : String) : Json
  | arr (elems : List Json) : Json
  | obj (fields : List (String × Json)) : Json

/-- `EMBED_DIM` from `embedder.hpp`. -/
def EMBED_DIM : Nat := 4096

/-- `VectorEntry` from `vector_db.hpp`. -/
structure VectorEntry where
  chunk_id : String
  doc_id : String
  text : String
  metadata : Json
  embedding : List ℚ

/-- `SearchResult`: `vector_db.hpp` declares the fields `chunk_id`, `score`,
`text`; the `push_back` in `VectorDB::search` additionally passes the entry's
`metadata`, so we keep the four components handed over by the implementation.
`Server::handle_search` serialises only the first three. -/
structure SearchResult where
  chunk_id : String
  score : ℚ
  text : String
  metadata : Json

/-- Keyed lookup in an association list (models `unordered_map::find`). -/
def findVal {α : Type} : List (String × α) → String → Option α
  | [], _ => none
  | (k2, v) :: rest, k => if k2 = k then some v else findVal rest k

/-- Replace the value at a key, or append a fresh binding (models
`map[k] = v`). -/
def setVal {α : Type} : List (String × α) → String → α → List (String × α)
  | [], k, v => [(k, v)]
  | (k2, v2) :: rest, k, v =>
      if k2 = k then (k, v) :: rest else (k2, v2) :: setVal rest k v

/-- Remove the binding of a key (models `map.erase(k)`). -/
def eraseKey {α : Type} : List (String × α) → String → List (String × α)
  | [], _ => []
  | (k2, v2) :: rest, k =>
      if k2 = k then rest else (k2, v2) :: eraseKey rest k

/-- `doc_index_[k].push_back(c)`: append `c` to the bucket of `k`,
default-constructing an empty bucket when the key is absent. -/
def pushBack : List (String × List String) → String → String → List (String × List String)
  | [], k, c => [(k, [c])]
  | (k2, ids) :: rest, k, c =>
      if k2 = k then (k2, ids ++ [c]) :: rest else (k2, ids) :: pushBack rest k c

/-- `VectorDB` from `vector_db.hpp`: primary store `entries_` and the
secondary index `doc_index_`. -/
structure VectorDB where
  entries : List (String × VectorEntry)
  doc_index : List (String × List String)

def VectorDB.empty : VectorDB := ⟨[], []⟩

/-- The chunk_ids currently registered under a doc_id (empty when the doc_id
is absent from the index). -/
def bucketOf (db : VectorDB) (d : String) : List String :=
  (findVal db.doc_index d).getD []

/-- `VectorDB::store` from `vector_db.cpp`: when overwriting, first remove the
chunk_id from the previous doc_id's bucket (erasing the bucket if it becomes
empty), then upsert the entry and append the chunk_id to the new doc_id's
bucket. -/
def VectorDB.store (db : VectorDB) (chunk_id doc_id text : String)
    (metadata : Json) (embedding : List ℚ) : VectorDB :=
  let db1 :=
    match findVal db.entries chunk_id with
    | some old =>
        let ids := bucketOf db old.doc_id
        let ids2 := ids.filter (fun c => c ≠ chunk_id)
        if ids2.isEmpty then
          { db with doc_index := eraseKey db.doc_index old.doc_id }
        else
          { db with doc_index := setVal db.doc_index old.doc_id ids2 }
    | none => db
  { entries := setVal db1.entries chunk_id ⟨chunk_id, doc_id, text, metadata, embedding⟩,
    doc_index := pushBack db1.doc_index doc_id chunk_id }

/-- `VectorDB::dot_product`: sum of pairwise products over the shorter of the
two lengths. -/
def dot_product (a b : List ℚ) : ℚ :=
  (List.zipWith (· * ·) a b).sum

/-- The `scored` vector built by `VectorDB::search`: candidates restricted to
the filter's bucket when `doc_id_filter` is non-empty, otherwise all entries,
each paired with its dot-product score. -/
def scoredOf (db : VectorDB) (query_embedding : List ℚ) (doc_id_filter : String) :
    List (ℚ × VectorEntry) :=
  if doc_id_filter ≠ "" then
    match findVal db.doc_index doc_id_filter with
    | some cids =>
        cids.filterMap (fun cid =>
          (findVal db.entries cid).map (fun e => (dot_product query_embedding e.embedding, e)))
    | none => []
  else
    db.entries.map (fun p => (dot_product query_embedding p.2.embedding, p.2))

/-- Descending-score order used by the `std::sort` comparator
`a.first > b.first` (the sorted output is pairwise `≥` on scores). -/
def scoreDesc (a b : ℚ × VectorEntry) : Prop := b.1 ≤ a.1

instance : DecidableRel scoreDesc := fun a b =>
  decidable_of_iff (b.1 ≤ a.1) Iff.rfl

instance : IsTotal (ℚ × VectorEntry) scoreDesc :=
  ⟨fun a b => le_total b.1 a.1⟩

instance : IsTrans (ℚ × VectorEntry) scoreDesc :=
  ⟨fun _ _ _ h1 h2 => le_trans h2 h1⟩

/-- `VectorDB::search` from `vector_db.cpp`: score the candidates, sort by
score descending, and return the first `min top_k (int)scored.size()` results
(`top_k` is a C++ `int`, so negative values yield an empty list). -/
def VectorDB.search (db : VectorDB) (query_embedding : List ℚ) (top_k : Int)
    (doc_id_filter : String) : List SearchResult :=
  let scored := scoredOf db query_embedding doc_id_filter
  let sorted := List.insertionSort scoreDesc scored
  let count : Int := min top_k (scored.length : Int)
  (sorted.take count.toNat).map (fun p => ⟨p.2.chunk_id, p.1, p.2.text, p.2.metadata⟩)

/-! ### Embedder (`embedder.hpp` and its implementation) -/

/-- `std::isalnum` under the default locale, on the ASCII range the code
processes byte-wise. -/
def isAlnumChar (c : Char) : Bool :=
  ( '0' ≤ c && c ≤ '9') || ( 'A' ≤ c && c ≤ 'Z') || ( 'a' ≤ c && c ≤ 'z')

/-- `std::tolower` on the ASCII range. -/
def toLowerChar (c : Char) : Char :=
  if 'A' ≤ c && c ≤ 'Z' then Char.ofNat (c.toNat + 32) else c

/-- The tokenisation loop of `embed`: accumulate lowercased alphanumeric runs,
flushing the current token at every non-alphanumeric boundary and once at the
end of the text. -/
def tokenizeAux : List Char → List Char → List String
  | [], tok => if tok = [] then [] else [String.mk tok]
  | c :: cs, tok =>
      if isAlnumChar c then tokenizeAux cs (tok ++ [toLowerChar c])
      else if tok = [] then tokenizeAux cs []
      else String.mk tok :: tokenizeAux cs []

def tokenize (text : String) : List String := tokenizeAux text.data []

/-- `vec[h] += 1.0f` at index `i` (always in range in `embed`). -/
def bump (v : List ℕ) (i : ℕ) : List ℕ := v.set i (v.getD i 0 + 1)

/-- The count vector accumulated by `embed` before normalisation:
`EMBED_DIM` buckets, each token incrementing bucket `hash(token) % EMBED_DIM`.
`hash` abstracts the implementation-defined `std::hash<std::string>`. -/
def embedCounts (hash : String → ℕ) (text : String) : List ℕ :=
  (tokenize text).foldl (fun v tok => bump v (hash tok % EMBED_DIM))
    (List.replicate EMBED_DIM 0)

/-- The local `vec` of `embed`, as real numbers (idealised `float`s), before
normalisation. -/
def vecR (hash : String → ℕ) (text : String) : List ℝ :=
  (embedCounts hash text).map (fun n : ℕ => (n : ℝ))

/-- The local `norm` of `embed` before the square root is taken: the sum of
the squares of the accumulated bucket counts. -/
def normSq (hash : String → ℕ) (text : String) : ℝ :=
  ((vecR hash text).map (fun v => v * v)).sum

/-- `embed` from the embedder implementation: bucket counts, then L2
normalisation guarded by `norm > 0` (an all-zero vector is returned
unnormalised, avoiding a division by zero). -/
noncomputable def embed (hash : String → ℕ) (text : String) : List ℝ :=
  if 0 < normSq hash text then
    (vecR hash text).map (fun v => v / Real.sqrt (normSq hash text))
  else vecR hash text

/-! ### Protocol server (`server.hpp`, `server.cpp`) -/

/-- Field access on a decoded request (`request.contains` / `request[...]`
on an object; nlohmann find on a non-object finds nothing). -/
def getField (j : Json) (k : String) : Option Json :=
  match j with
  | Json.obj fields => findVal fields k
  | _ => none

def jsonContains (j : Json) (k : String) : Bool := (getField j k).isSome

/-- `get_ref<const std::string&>`: the stored string, or a `type_error`
(modelled by `none`) when the value is not a string. -/
def asString : Json → Option String
  | Json.str s => some s
  | _ => none

/-- The string form of the `action` field when present with the right type. -/
def actionString (request : Json) : Option String :=
  match getField request "action" with
  | some (Json.str s) => some s
  | _ => none

def errorResponse (msg : String) : Json :=
  Json.obj [("status", Json.str "error"), ("message", Json.str msg)]

def okResponse : Json := Json.obj [("status", Json.str "ok")]

/-- `request.value("top_k", 5)`: default 5 when the field is absent, the
stored number converted to `int` when present (conversion of a non-integral
stored number is coarsely modelled by `Rat.floor`; no claim depends on it),
and a `type_error` (`none`) on a non-numeric value. -/
def topKOf (request : Json) : Option Int :=
  match getField request "top_k" with
  | none => some 5
  | some (Json.num q) => some ⌊q⌋
  | some _ => none

/-- `request.value("doc_id", std::string(""))`: default `""` when absent,
`type_error` (`none`) on a non-string value. -/
def docIdOf (request : Json) : Option String :=
  match getField request "doc_id" with
  | none => some ""
  | some (Json.str s) => some s
  | some _ => none

/-- Serialisation of one search result performed by `Server::handle_search`:
only `chunk_id`, `score` and `text` are emitted. -/
def resultJson (r : SearchResult) : Json :=
  Json.obj [("chunk_id", Json.str r.chunk_id), ("score", Json.num r.score),
            ("text", Json.str r.text)]

def searchResponse (results : List SearchResult) : Json :=
  Json.obj [("status", Json.str "ok"), ("results", Json.arr (results.map resultJson))]

/-- `Server::handle_store`.  `embedF` abstracts the call `embed(text)` (the
concrete embedder is irrelevant to the server's dispatch behaviour and its
scores are idealised as rationals).  `Except.error` models a thrown
`nlohmann` `type_error` escaping to `handle_connection`. -/
def handle_store (embedF : String → List ℚ) (db : VectorDB) (request : Json) :
    Except String (Json × VectorDB) :=
  if !(jsonContains request "chunk_id" && jsonContains request "doc_id"
        && jsonContains request "text") then
    Except.ok (errorResponse "store requires chunk_id, doc_id, and text", db)
  else
    match asString ((getField request "chunk_id").getD Json.null),
          asString ((getField request "doc_id").getD Json.null),
          asString ((getField request "text").getD Json.null) with
    | some chunk_id, some doc_id, some text =>
        let metadata := (getField request "metadata").getD (Json.obj [])
        Except.ok (okResponse, db.store chunk_id doc_id text metadata (embedF text))
    | _, _, _ => Except.error "type must be string"

/-- `Server::handle_search`. -/
def handle_search (embedF : String → List ℚ) (db : VectorDB) (request : Json) :
    Except String Json :=
  if !(jsonContains request "query") then
    Except.ok (errorResponse "search requires query")
  else
    match asString ((getField request "query").getD Json.null) with
    | none => Except.error "type must be string"
    | some query =>
        match topKOf request, docIdOf request with
        | some top_k, some doc_id_filter =>
            Except.ok (searchResponse (db.search (embedF query) top_k doc_id_filter))
        | _, _ => Except.error "type error in value access"

/-- `Server::dispatch`: route on the `action` field; missing or non-string
action and unknown actions yield structured error responses. -/
def dispatch (embedF : String → List ℚ) (db : VectorDB) (request : Json) :
    Except String (Json × VectorDB) :=
  match getField request "action" with
  | some (Json.str a) =>
      if a = "store" then handle_store embedF db request
      else if a = "search" then
        (handle_search embedF db request).map (fun resp => (resp, db))
      else Except.ok (errorResponse ("Unknown action: " ++ a), db)
  | _ => Except.ok (errorResponse "Missing or invalid \x27action\x27 field", db)

/-- The 4-byte big-endian length prefix of the wire format. -/
def declaredLen (b0 b1 b2 b3 : Fin 256) : Nat :=
  b0.val * 2 ^ 24 + b1.val * 2 ^ 16 + b2.val * 2 ^ 8 + b3.val

/-- `Server::read_message` over the total byte stream a client sends: read the
4-byte header, reject a declared length of `0` or above 10 MiB, then read
exactly that many payload bytes.  `Except.error` models the thrown
`std::runtime_error`. -/
def read_message : List (Fin 256) → Except String (List (Fin 256))
  | b0 :: b1 :: b2 :: b3 :: rest =>
      let length := declaredLen b0 b1 b2 b3
      if length = 0 ∨ 10 * 1024 * 1024 < length then
        Except.error ("Invalid message length: " ++ toString length)
      else if rest.length < length then
        Except.error "Failed to read message payload"
      else
        Except.ok (rest.take length)
  | _ => Except.error "Failed to read message length"

/-- One accepted connection: the bytes its peer sends, and whether writing a
response to the peer succeeds. -/
structure Conn where
  stream : List (Fin 256)
  writeOk : Bool

/-- `Server::handle_connection`.  `parse` abstracts `nlohmann::json::parse`
(`none` = `parse_error` thrown).  The result is the store state after the
connection; `Except.error` means an exception escaped `handle_connection`
(which terminates the process, since neither `run` nor `main`'s loop resumes).
Faithful to the code: a read failure or a dispatch-level exception is caught
and answered (the answering write itself being guarded), a write failure after
a successful dispatch is caught with the guarded error write, but the error
write performed in the `parse_error` handler is NOT guarded by any try/catch,
so its failure escapes. -/
def handle_connection (embedF : String → List ℚ)
    (parse : List (Fin 256) → Option Json) (c : Conn) (db : VectorDB) :
    Except String VectorDB :=
  match read_message c.stream with
  | Except.error _ => Except.ok db
  | Except.ok payload =>
    match parse payload with
    | none =>
        if c.writeOk then Except.ok db
        else Except.error "Failed to write message length"
    | some request =>
        match dispatch embedF db request with
        | Except.ok (_, db2) => Except.ok db2
        | Except.error _ => Except.ok db

/-- The accept loop of `Server::run`, processing a sequence of connections;
an exception escaping `handle_connection` propagates (the process dies). -/
def runConns (embedF : String → List ℚ) (parse : List (Fin 256) → Option Json) :
    List Conn → VectorDB → Except String VectorDB
  | [], db => Except.ok db
  | c :: cs, db =>
      match handle_connection embedF parse c db with
      | Except.ok db2 => runConns embedF parse cs db2
      | Except.error e => Except.error e

/-! ### Store-reachable states -/

/-- The arguments of one `VectorDB::store` call. -/
structure StoreOp where
  chunk_id : String
  doc_id : String
  text : String
  metadata : Json
  embedding : List ℚ

def applyStores (ops : List StoreOp) : VectorDB :=
  ops.foldl (fun db op => db.store op.chunk_id op.doc_id op.text op.metadata op.embedding)
    VectorDB.empty

/-- The candidate chunk_ids a search call with the given filter scores:
for a non-empty filter, the filter's bucket restricted to present entries;
otherwise every stored chunk_id. -/
def candidateIds (db : VectorDB) (doc_id_filter : String) : List String :=
  if doc_id_filter ≠ "" then
    (bucketOf db doc_id_filter).filter (fun cid => (findVal db.entries cid).isSome)
  else
    db.entries.map Prod.fst

/-- Well-formedness of the two maps, maintained by `VectorDB::store`:
no duplicate keys, every entry records its own key, the index links exactly
the chunk_ids of entries with that doc_id, buckets are never empty, and every
entry is registered in its doc_id's bucket. -/
structure WF (db : VectorDB) : Prop where
  entries_nodup : (db.entries.map Prod.fst).Nodup
  index_nodup : (db.doc_index.map Prod.fst).Nodup
  entry_key : ∀ cid e, findVal db.entries cid = some e → e.chunk_id = cid
  link : ∀ d cid, cid ∈ bucketOf db d →
    ∃ e, findVal db.entries cid = some e ∧ e.doc_id = d
  buckets_nonempty : ∀ d ids, findVal db.doc_index d = some ids → ids ≠ []
  entry_linked : ∀ cid e, findVal db.entries cid = some e → cid ∈ bucketOf db e.doc_id

/-! ### Association-list lemmas -/

theorem mem_of_findVal {α : Type} {m : List (String × α)} {k : String} {v : α}
    (h : findVal m k = some v) : (k, v) ∈ m := by
  induction m with
  | nil => simp [findVal] at h
  | cons p rest ih =>
      obtain ⟨k2, v2⟩ := p
      by_cases hk : k2 = k
      · subst hk
        simp [findVal] at h
        subst h
        exact List.mem_cons_self _ _
      · rw [findVal, if_neg hk] at h
        exact List.mem_cons_of_mem _ (ih h)

theorem findVal_eq_none_of_not_mem {α : Type} {m : List (String × α)} {k : String}
    (h : k ∉ m.map Prod.fst) : findVal m k = none := by
  induction m with
  | nil => rfl
  | cons p rest ih =>
      obtain ⟨k2, v2⟩ := p
      simp only [List.map_cons, List.mem_cons] at h
      push_neg at h
      rw [findVal, if_neg (fun hh => h.1 hh.symm)]
      exact ih h.2

theorem mem_keys_of_findVal {α : Type} {m : List (String × α)} {k : String} {v : α}
    (h : findVal m k = some v) : k ∈ m.map Prod.fst := by
  by_contra hk
  rw [findVal_eq_none_of_not_mem hk] at h
  exact Option.noConfusion h

theorem findVal_of_mem {α : Type} {m : List (String × α)} {k : String} {v : α}
    (hnd : (m.map Prod.fst).Nodup) (h : (k, v) ∈ m) : findVal m k = some v := by
  induction m with
  | nil => simp at h
  | cons p rest ih =>
      obtain ⟨k2, v2⟩ := p
      simp only [List.map_cons, List.nodup_cons] at hnd
      rcases List.mem_cons.mp h with h1 | h1
      · cases h1
        rw [findVal, if_pos rfl]
      · have hk : k2 ≠ k := by
          intro hk
          subst hk
          exact hnd.1 (List.mem_map.mpr ⟨(k2, v), h1, rfl⟩)
        rw [findVal, if_neg hk]
        exact ih hnd.2 h1

theorem findVal_setVal_self {α : Type} (m : List (String × α)) (k : String) (v : α) :
    findVal (setVal m k v) k = some v := by
  induction m with
  | nil => simp [setVal, findVal]
  | cons p rest ih =>
      obtain ⟨k2, v2⟩ := p
      by_cases hk : k2 = k
      · rw [setVal, if_pos hk, findVal, if_pos rfl]
      · rw [setVal, if_neg hk, findVal, if_neg hk]
        exact ih

theorem findVal_setVal_ne {α : Type} (m : List (String × α)) (k : String) (v : α)
    {kq : String} (h : kq ≠ k) : findVal (setVal m k v) kq = findVal m kq := by
  induction m with
  | nil => simp [setVal, findVal, if_neg (Ne.symm h)]
  | cons p rest ih =>
      obtain ⟨k2, v2⟩ := p
      by_cases hk : k2 = k
      · subst hk
        rw [setVal, if_pos rfl, findVal, if_neg (Ne.symm h), findVal,
          if_neg (Ne.symm h)]
      · rw [setVal, if_neg hk, findVal, findVal]
        by_cases hq : k2 = kq
        · rw [if_pos hq, if_pos hq]
        · rw [if_neg hq, if_neg hq]
          exact ih

theorem mem_keys_setVal {α : Type} (m : List (String × α)) (k : String) (v : α)
    (kq : String) :
    kq ∈ (setVal m k v).map Prod.fst ↔ kq ∈ m.map Prod.fst ∨ kq = k := by
  induction m with
  | nil => simp [setVal]
  | cons p rest ih =>
      obtain ⟨k2, v2⟩ := p
      by_cases hk : k2 = k
      · subst hk
        rw [setVal, if_pos rfl]
        simp only [List.map_cons, List.mem_cons]
        constructor
        · rintro (h | h)
          · exact Or.inr h
          · exact Or.inl (Or.inr h)
        · rintro ((h | h) | h)
          · exact Or.inl h
          · exact Or.inr h
          · exact Or.inl h
      · rw [setVal, if_neg hk]
        simp only [List.map_cons, List.mem_cons]
        rw [ih]
        tauto

theorem nodup_keys_setVal {α : Type} (m : List (String × α)) (k : String) (v : α)
    (h : (m.map Prod.fst).Nodup) : ((setVal m k v).map Prod.fst).Nodup := by
  induction m with
  | nil => simp [setVal]
  | cons p rest ih =>
      obtain ⟨k2, v2⟩ := p
      simp only [List.map_cons, List.nodup_cons] at h
      by_cases hk : k2 = k
      · subst hk
        rw [setVal, if_pos rfl]
        simp only [List.map_cons, List.nodup_cons]
        exact h
      · rw [setVal, if_neg hk]
        simp only [List.map_cons, List.nodup_cons]
        refine ⟨fun hmem => ?_, ih h.2⟩
        rcases (mem_keys_setVal rest k v k2).mp hmem with h1 | h1
        · exact h.1 h1
        · exact hk h1

theorem eraseKey_sublist {α : Type} (m : List (String × α)) (k : String) :
    (eraseKey m k).Sublist m := by
  induction m with
  | nil => simp [eraseKey]
  | cons p rest ih =>
      obtain ⟨k2, v2⟩ := p
      by_cases hk : k2 = k
      · rw [eraseKey, if_pos hk]
        exact List.sublist_cons_self _ _
      · rw [eraseKey, if_neg hk]
        exact ih.cons₂ _

theorem nodup_keys_eraseKey {α : Type} (m : List (String × α)) (k : String)
    (h : (m.map Prod.fst).Nodup) : ((eraseKey m k).map Prod.fst).Nodup :=
  ((eraseKey_sublist m k).map Prod.fst).nodup h

theorem findVal_eraseKey_self {α : Type} (m : List (String × α)) (k : String)
    (h : (m.map Prod.fst).Nodup) : findVal (eraseKey m k) k = none := by
  induction m with
  | nil => rfl
  | cons p rest ih =>
      obtain ⟨k2, v2⟩ := p
      simp only [List.map_cons, List.nodup_cons] at h
      by_cases hk : k2 = k
      · subst hk
        rw [eraseKey, if_pos rfl]
        exact findVal_eq_none_of_not_mem h.1
      · rw [eraseKey, if_neg hk, findVal, if_neg hk]
        exact ih h.2

theorem findVal_eraseKey_ne {α : Type} (m : List (String × α)) (k : String)
    {kq : String} (h : kq ≠ k) : findVal (eraseKey m k) kq = findVal m kq := by
  induction m with
  | nil => rfl
  | cons p rest ih =>
      obtain ⟨k2, v2⟩ := p
      by_cases hk : k2 = k
      · subst hk
        rw [eraseKey, if_pos rfl, findVal, if_neg (fun hh => h hh.symm)]
      · rw [eraseKey, if_neg hk, findVal, findVal]
        by_cases hq : k2 = kq
        · rw [if_pos hq, if_pos hq]
        · rw [if_neg hq, if_neg hq]
          exact ih

theorem findVal_pushBack_self (m : List (String × List String)) (k c : String) :
    findVal (pushBack m k c) k = some ((findVal m k).getD [] ++ [c]) := by
  induction m with
  | nil => simp [pushBack, findVal]
  | cons p rest ih =>
      obtain ⟨k2, ids⟩ := p
      by_cases hk : k2 = k
      · rw [pushBack, if_pos hk, findVal, if_pos hk, findVal, if_pos hk]
        rfl
      · rw [pushBack, if_neg hk, findVal, if_neg hk, findVal, if_neg hk]
        exact ih

theorem findVal_pushBack_ne (m : List (String × List String)) (k c : String)
    {kq : String} (h : kq ≠ k) : findVal (pushBack m k c) kq = findVal m kq := by
  induction m with
  | nil => simp [pushBack, findVal, if_neg (Ne.symm h)]
  | cons p rest ih =>
      obtain ⟨k2, ids⟩ := p
      by_cases hk : k2 = k
      · rw [pushBack, if_pos hk, findVal, findVal]
        by_cases hq : k2 = kq
        · exact absurd (hk ▸ hq : k = kq) (Ne.symm h)
        · rw [if_neg hq, if_neg hq]
      · rw [pushBack, if_neg hk, findVal, findVal]
        by_cases hq : k2 = kq
        · rw [if_pos hq, if_pos hq]
        · rw [if_neg hq, if_neg hq]
          exact ih

theorem mem_keys_pushBack (m : List (String × List String)) (k c : String)
    (kq : String) :
    kq ∈ (pushBack m k c).map Prod.fst ↔ kq ∈ m.map Prod.fst ∨ kq = k := by
  induction m with
  | nil => simp [pushBack]
  | cons p rest ih =>
      obtain ⟨k2, ids⟩ := p
      by_cases hk : k2 = k
      · subst hk
        rw [pushBack, if_pos rfl]
        simp only [List.map_cons, List.mem_cons]
        tauto
      · rw [pushBack, if_neg hk]
        simp only [List.map_cons, List.mem_cons]
        rw [ih]
        tauto

theorem nodup_keys_pushBack (m : List (String × List String)) (k c : String)
    (h : (m.map Prod.fst).Nodup) : ((pushBack m k c).map Prod.fst).Nodup := by
  induction m with
  | nil => simp [pushBack]
  | cons p rest ih =>
      obtain ⟨k2, ids⟩ := p
      simp only [List.map_cons, List.nodup_cons] at h
      by_cases hk : k2 = k
      · subst hk
        rw [pushBack, if_pos rfl]
        simp only [List.map_cons, List.nodup_cons]
        exact h
      · rw [pushBack, if_neg hk]
        simp only [List.map_cons, List.nodup_cons]
        refine ⟨fun hmem => ?_, ih h.2⟩
        rcases (mem_keys_pushBack rest k c k2).mp hmem with h1 | h1
        · exact h.1 h1
        · exact hk h1

/-! ### Characterisation of `VectorDB.store` -/

theorem store_entries_eq (db : VectorDB) (c d t : String) (m : Json) (emb : List ℚ) :
    (db.store c d t m emb).entries =
      setVal db.entries c ⟨c, d, t, m, emb⟩ := by
  unfold VectorDB.store
  cases hfind : findVal db.entries c with
  | none => rfl
  | some old =>
      dsimp only
      by_cases he : ((bucketOf db old.doc_id).filter (fun i => i ≠ c)).isEmpty
      · rw [if_pos he]
      · rw [if_neg he]

theorem store_entries_findVal (db : VectorDB) (c d t : String) (m : Json)
    (emb : List ℚ) (cid : String) :
    findVal (db.store c d t m emb).entries cid =
      if cid = c then some ⟨c, d, t, m, emb⟩ else findVal db.entries cid := by
  rw [store_entries_eq]
  by_cases h : cid = c
  · subst h
    rw [if_pos rfl]
    exact findVal_setVal_self _ _ _
  · rw [if_neg h]
    exact findVal_setVal_ne _ _ _ h

/-- The index of the intermediate state `db1` of `VectorDB::store` (after the
old linkage of an overwritten `chunk_id` has been removed), read at key `x`. -/
def midIndexFind (db : VectorDB) (c x : String) : Option (List String) :=
  match findVal db.entries c with
  | none => findVal db.doc_index x
  | some old =>
      if x = old.doc_id then
        (if (bucketOf db old.doc_id).filter (fun i => i ≠ c) = [] then none
         else some ((bucketOf db old.doc_id).filter (fun i => i ≠ c)))
      else findVal db.doc_index x

theorem store_index_findVal (db : VectorDB)
    (hnd : (db.doc_index.map Prod.fst).Nodup) (c d t : String) (m : Json)
    (emb : List ℚ) (x : String) :
    findVal (db.store c d t m emb).doc_index x =
      if x = d then some ((midIndexFind db c d).getD [] ++ [c])
      else midIndexFind db c x := by
  have hmid : ∀ y : String,
      findVal (match findVal db.entries c with
        | some old =>
            let ids := bucketOf db old.doc_id
            let ids2 := ids.filter (fun i => i ≠ c)
            if ids2.isEmpty then
              { db with doc_index := eraseKey db.doc_index old.doc_id }
            else
              { db with doc_index := setVal db.doc_index old.doc_id ids2 }
        | none => db : VectorDB).doc_index y = midIndexFind db c y := by
    intro y
    unfold midIndexFind
    cases hfind : findVal db.entries c with
    | none => rfl
    | some old =>
        dsimp only
        by_cases he : ((bucketOf db old.doc_id).filter (fun i => i ≠ c)).isEmpty
        · rw [if_pos he]
          rw [List.isEmpty_iff] at he
          rw [if_pos he]
          by_cases hy : y = old.doc_id
          · subst hy
            rw [if_pos rfl]
            exact findVal_eraseKey_self _ _ hnd
          · rw [if_neg hy]
            exact findVal_eraseKey_ne _ _ hy
        · rw [if_neg he]
          rw [List.isEmpty_iff] at he
          rw [if_neg he]
          by_cases hy : y = old.doc_id
          · subst hy
            rw [if_pos rfl]
            exact findVal_setVal_self _ _ _
          · rw [if_neg hy]
            exact findVal_setVal_ne _ _ _ hy
  show findVal (pushBack _ d c) x = _
  by_cases hx : x = d
  · subst hx
    rw [if_pos rfl, findVal_pushBack_self, hmid x]
  · rw [if_neg hx, findVal_pushBack_ne _ _ _ hx, hmid x]

theorem store_index_nodup (db : VectorDB)
    (hnd : (db.doc_index.map Prod.fst).Nodup) (c d t : String) (m : Json)
    (emb : List ℚ) :
    ((db.store c d t m emb).doc_index.map Prod.fst).Nodup := by
  unfold VectorDB.store
  cases hfind : findVal db.entries c with
  | none => exact nodup_keys_pushBack _ _ _ hnd
  | some old =>
      dsimp only
      by_cases he : ((bucketOf db old.doc_id).filter (fun i => i ≠ c)).isEmpty
      · rw [if_pos he]
        exact nodup_keys_pushBack _ _ _ (nodup_keys_eraseKey _ _ hnd)
      · rw [if_neg he]
        exact nodup_keys_pushBack _ _ _ (nodup_keys_setVal _ _ _ hnd)

theorem midIndexFind_of_none {db : VectorDB} {c : String}
    (hfind : findVal db.entries c = none) (x : String) :
    midIndexFind db c x = findVal db.doc_index x := by
  unfold midIndexFind
  rw [hfind]

theorem midIndexFind_of_some {db : VectorDB} {c : String} {old : VectorEntry}
    (hfind : findVal db.entries c = some old) (x : String) :
    midIndexFind db c x =
      if x = old.doc_id then
        (if (bucketOf db old.doc_id).filter (fun i => i ≠ c) = [] then none
         else some ((bucketOf db old.doc_id).filter (fun i => i ≠ c)))
      else findVal db.doc_index x := by
  unfold midIndexFind
  rw [hfind]

theorem mem_midIndexFind {db : VectorDB} (h : WF db) {c x cid : String}
    (hmem : cid ∈ (midIndexFind db c x).getD []) :
    cid ≠ c ∧ cid ∈ bucketOf db x := by
  cases hfind : findVal db.entries c with
  | none =>
      rw [midIndexFind_of_none hfind] at hmem
      refine ⟨?_, hmem⟩
      rintro rfl
      obtain ⟨e, he, -⟩ := h.link x cid hmem
      rw [hfind] at he
      exact Option.noConfusion he
  | some old =>
      rw [midIndexFind_of_some hfind] at hmem
      by_cases hx : x = old.doc_id
      · rw [if_pos hx] at hmem
        by_cases hf : (bucketOf db old.doc_id).filter (fun i => i ≠ c) = []
        · rw [if_pos hf] at hmem
          simp at hmem
        · rw [if_neg hf] at hmem
          simp only [Option.getD_some, List.mem_filter, decide_eq_true_eq] at hmem
          exact ⟨hmem.2, hx ▸ hmem.1⟩
      · rw [if_neg hx] at hmem
        refine ⟨?_, hmem⟩
        rintro rfl
        obtain ⟨e, he, hd⟩ := h.link x cid hmem
        rw [hfind] at he
        cases he
        exact hx hd.symm

theorem mem_midIndexFind_of (db : VectorDB) (c : String) {x cid : String}
    (hne : cid ≠ c) (hmem : cid ∈ bucketOf db x) :
    cid ∈ (midIndexFind db c x).getD [] := by
  cases hfind : findVal db.entries c with
  | none =>
      rw [midIndexFind_of_none hfind]
      exact hmem
  | some old =>
      rw [midIndexFind_of_some hfind]
      by_cases hx : x = old.doc_id
      · rw [if_pos hx]
        have hmem2 : cid ∈ (bucketOf db old.doc_id).filter (fun i => i ≠ c) := by
          rw [List.mem_filter]
          exact ⟨hx ▸ hmem, by simp [hne]⟩
        rw [if_neg (List.ne_nil_of_mem hmem2)]
        exact hmem2
      · rw [if_neg hx]
        exact hmem

theorem midIndexFind_some {db : VectorDB} (h : WF db) {c x : String}
    {ids : List String} (hfind : midIndexFind db c x = some ids) : ids ≠ [] := by
  cases he : findVal db.entries c with
  | none =>
      rw [midIndexFind_of_none he] at hfind
      exact h.buckets_nonempty x ids hfind
  | some old =>
      rw [midIndexFind_of_some he] at hfind
      by_cases hx : x = old.doc_id
      · rw [if_pos hx] at hfind
        by_cases hf : (bucketOf db old.doc_id).filter (fun i => i ≠ c) = []
        · rw [if_pos hf] at hfind
          exact Option.noConfusion hfind
        · rw [if_neg hf] at hfind
          cases hfind
          exact hf
      · rw [if_neg hx] at hfind
        exact h.buckets_nonempty x ids hfind

theorem bucketOf_store (db : VectorDB) (h : WF db) (c d t : String) (m : Json)
    (emb : List ℚ) (x : String) :
    bucketOf (db.store c d t m emb) x =
      if x = d then (midIndexFind db c d).getD [] ++ [c]
      else (midIndexFind db c x).getD [] := by
  unfold bucketOf
  rw [store_index_findVal db h.index_nodup c d t m emb x]
  by_cases hx : x = d
  · rw [if_pos hx, if_pos hx]
    rfl
  · rw [if_neg hx, if_neg hx]

theorem WF_store (db : VectorDB) (h : WF db) (c d t : String) (m : Json)
    (emb : List ℚ) : WF (db.store c d t m emb) := by
  refine ⟨?_, ?_, ?_, ?_, ?_, ?_⟩
  · rw [store_entries_eq]
    exact nodup_keys_setVal _ _ _ h.entries_nodup
  · exact store_index_nodup db h.index_nodup c d t m emb
  · intro cid e hfind
    rw [store_entries_findVal] at hfind
    by_cases hc : cid = c
    · rw [if_pos hc] at hfind
      cases hfind
      exact hc.symm
    · rw [if_neg hc] at hfind
      exact h.entry_key cid e hfind
  · intro x cid hmem
    rw [bucketOf_store db h c d t m emb x] at hmem
    by_cases hx : x = d
    · rw [if_pos hx] at hmem
      rcases List.mem_append.mp hmem with hmem2 | hmem2
      · obtain ⟨hne, hbu⟩ := mem_midIndexFind h hmem2
        obtain ⟨e, he, hd⟩ := h.link d cid hbu
        refine ⟨e, ?_, ?_⟩
        · rw [store_entries_findVal, if_neg hne]
          exact he
        · rw [hx]
          exact hd
      · have hc : cid = c := by simpa using hmem2
        refine ⟨⟨c, d, t, m, emb⟩, ?_, hx.symm⟩
        rw [store_entries_findVal, if_pos hc]
    · rw [if_neg hx] at hmem
      obtain ⟨hne, hbu⟩ := mem_midIndexFind h hmem
      obtain ⟨e, he, hd⟩ := h.link x cid hbu
      refine ⟨e, ?_, hd⟩
      rw [store_entries_findVal, if_neg hne]
      exact he
  · intro x ids hfind
    rw [store_index_findVal db h.index_nodup c d t m emb x] at hfind
    by_cases hx : x = d
    · rw [if_pos hx] at hfind
      cases hfind
      simp
    · rw [if_neg hx] at hfind
      exact midIndexFind_some h hfind
  · intro cid e hfind
    rw [store_entries_findVal] at hfind
    rw [bucketOf_store db h c d t m emb e.doc_id]
    by_cases hc : cid = c
    · rw [if_pos hc] at hfind
      cases hfind
      rw [if_pos rfl]
      simp [hc]
    · rw [if_neg hc] at hfind
      have hlinked := h.entry_linked cid e hfind
      have hmid := mem_midIndexFind_of db c hc hlinked
      by_cases hx : e.doc_id = d
      · rw [if_pos hx]
        refine List.mem_append.mpr (Or.inl ?_)
        rw [← hx]
        exact hmid
      · rw [if_neg hx]
        exact hmid

theorem WF_empty : WF VectorDB.empty := by
  refine ⟨?_, ?_, ?_, ?_, ?_, ?_⟩ <;> simp [VectorDB.empty, findVal, bucketOf]

theorem WF_foldl (ops : List StoreOp) (db : VectorDB) (h : WF db) :
    WF (ops.foldl
      (fun db op => db.store op.chunk_id op.doc_id op.text op.metadata op.embedding) db) := by
  induction ops generalizing db with
  | nil => exact h
  | cons op rest ih =>
      exact ih _ (WF_store db h op.chunk_id op.doc_id op.text op.metadata op.embedding)

theorem WF_applyStores (ops : List StoreOp) : WF (applyStores ops) :=
  WF_foldl ops VectorDB.empty WF_empty

/-! ### Search characterisation lemmas -/

theorem scoredOf_unfiltered (db : VectorDB) (q : List ℚ) :
    scoredOf db q "" = db.entries.map (fun p => (dot_product q p.2.embedding, p.2)) := by
  unfold scoredOf
  rw [if_neg (by simp)]

theorem scoredOf_filtered_none {db : VectorDB} {D : String} (hD : D ≠ "")
    (hfind : findVal db.doc_index D = none) (q : List ℚ) : scoredOf db q D = [] := by
  unfold scoredOf
  rw [if_pos hD, hfind]

theorem scoredOf_filtered_some {db : VectorDB} {D : String} {cids : List String}
    (hD : D ≠ "") (hfind : findVal db.doc_index D = some cids) (q : List ℚ) :
    scoredOf db q D = cids.filterMap (fun cid =>
      (findVal db.entries cid).map (fun e => (dot_product q e.embedding, e))) := by
  unfold scoredOf
  rw [if_pos hD, hfind]

theorem scoredOf_fst {db : VectorDB} {q : List ℚ} {D : String} {p : ℚ × VectorEntry}
    (hp : p ∈ scoredOf db q D) : p.1 = dot_product q p.2.embedding := by
  by_cases hD : D = ""
  · subst hD
    rw [scoredOf_unfiltered] at hp
    obtain ⟨a, -, rfl⟩ := List.mem_map.mp hp
    rfl
  · cases hfind : findVal db.doc_index D with
    | none =>
        rw [scoredOf_filtered_none hD hfind] at hp
        simp at hp
    | some cids =>
        rw [scoredOf_filtered_some hD hfind] at hp
        obtain ⟨cid, -, hcid⟩ := List.mem_filterMap.mp hp
        obtain ⟨e, -, rfl⟩ := Option.map_eq_some'.mp hcid
        rfl

theorem mem_scoredOf_filtered {db : VectorDB} {q : List ℚ} {D : String}
    {p : ℚ × VectorEntry} (hD : D ≠ "") (hp : p ∈ scoredOf db q D) :
    ∃ cid, cid ∈ bucketOf db D ∧ findVal db.entries cid = some p.2 := by
  cases hfind : findVal db.doc_index D with
  | none =>
      rw [scoredOf_filtered_none hD hfind] at hp
      simp at hp
  | some cids =>
      rw [scoredOf_filtered_some hD hfind] at hp
      obtain ⟨cid, hcid, heq⟩ := List.mem_filterMap.mp hp
      obtain ⟨e, he, rfl⟩ := Option.map_eq_some'.mp heq
      refine ⟨cid, ?_, he⟩
      unfold bucketOf
      rw [hfind]
      exact hcid

theorem mem_search {db : VectorDB} {q : List ℚ} {k : Int} {D : String}
    {r : SearchResult} (hr : r ∈ db.search q k D) :
    ∃ p ∈ scoredOf db q D, r = ⟨p.2.chunk_id, p.1, p.2.text, p.2.metadata⟩ := by
  unfold VectorDB.search at hr
  obtain ⟨p, hp, rfl⟩ := List.mem_map.mp hr
  have hp2 : p ∈ List.insertionSort scoreDesc (scoredOf db q D) :=
    (List.take_sublist _ _).subset hp
  rw [List.mem_insertionSort] at hp2
  exact ⟨p, hp2, rfl⟩

theorem search_of_scored_nil {db : VectorDB} {q : List ℚ} {D : String}
    (h : scoredOf db q D = []) (k : Int) : db.search q k D = [] := by
  unfold VectorDB.search
  rw [h]
  simp

theorem scoredOf_of_entries_nil {db : VectorDB} (h : db.entries = [])
    (q : List ℚ) (D : String) : scoredOf db q D = [] := by
  by_cases hD : D = ""
  · subst hD
    rw [scoredOf_unfiltered, h]
    rfl
  · cases hfind : findVal db.doc_index D with
    | none => exact scoredOf_filtered_none hD hfind q
    | some cids =>
        rw [scoredOf_filtered_some hD hfind]
        refine List.filterMap_eq_nil_iff.mpr (fun cid hcid => ?_)
        rw [h]
        rfl

/-! ### Claim C3 -/

/-- **C3**: after every sequence of store operations, each chunk_id keys at
most one entry; every chunk_id in the doc index under some doc_id has an
entry whose `doc_id` field equals that doc_id; no doc-index bucket is empty;
and overwriting an existing chunk_id leaves exactly one entry for it, with a
changed doc_id removing the chunk_id from the old doc_id's bucket (the bucket
being erased rather than kept empty) and adding it to the new doc_id's
bucket. -/
theorem store_invariants (ops : List StoreOp) :
    (∀ cid : String, ((applyStores ops).entries.map Prod.fst).count cid ≤ 1) ∧
    (∀ d cid : String, cid ∈ bucketOf (applyStores ops) d →
      ∃ e, findVal (applyStores ops).entries cid = some e ∧ e.doc_id = d) ∧
    (∀ d ids, findVal (applyStores ops).doc_index d = some ids → ids ≠ []) ∧
    (∀ cid d2 t2 m2 emb2 e, findVal (applyStores ops).entries cid = some e →
      (((applyStores ops).store cid d2 t2 m2 emb2).entries.map Prod.fst).count cid = 1 ∧
      findVal ((applyStores ops).store cid d2 t2 m2 emb2).entries cid =
        some ⟨cid, d2, t2, m2, emb2⟩ ∧
      (e.doc_id ≠ d2 →
        (∀ ids, findVal ((applyStores ops).store cid d2 t2 m2 emb2).doc_index e.doc_id =
            some ids → cid ∉ ids ∧ ids ≠ []) ∧
        cid ∈ bucketOf ((applyStores ops).store cid d2 t2 m2 emb2) d2)) := by
  have h := WF_applyStores ops
  refine ⟨fun cid => List.nodup_iff_count_le_one.mp h.entries_nodup cid,
    h.link, h.buckets_nonempty, ?_⟩
  intro cid d2 t2 m2 emb2 e hfind
  have h2 := WF_store (applyStores ops) h cid d2 t2 m2 emb2
  have hfind2 : findVal ((applyStores ops).store cid d2 t2 m2 emb2).entries cid =
      some ⟨cid, d2, t2, m2, emb2⟩ := by
    rw [store_entries_findVal, if_pos rfl]
  refine ⟨?_, hfind2, ?_⟩
  · exact List.count_eq_one_of_mem h2.entries_nodup (mem_keys_of_findVal hfind2)
  · intro hne
    constructor
    · intro ids hids
      rw [store_index_findVal _ h.index_nodup _ _ _ _ _ _, if_neg hne,
        midIndexFind_of_some hfind, if_pos rfl] at hids
      by_cases hf : (bucketOf (applyStores ops) e.doc_id).filter (fun i => i ≠ cid) = []
      · rw [if_pos hf] at hids
        exact Option.noConfusion hids
      · rw [if_neg hf] at hids
        cases hids
        refine ⟨fun hmem => ?_, hf⟩
        rw [List.mem_filter] at hmem
        simp at hmem
    · rw [bucketOf_store _ h _ _ _ _ _ _, if_pos rfl]
      simp

/-! ### Claim C5 -/

/-- **C5**: for every store-reachable state and every search with a non-empty
doc_id filter `D`, every returned chunk_id belongs to an entry whose stored
doc_id equals `D`; and when no entry is stored under `D`, the result is the
empty list (not an error). -/
theorem search_filtered_isolation (ops : List StoreOp) (q : List ℚ) (k : Int)
    (D : String) (hD : D ≠ "") :
    (∀ r ∈ (applyStores ops).search q k D,
      ∃ e, findVal (applyStores ops).entries r.chunk_id = some e ∧ e.doc_id = D) ∧
    ((∀ p ∈ (applyStores ops).entries, (p.2 : VectorEntry).doc_id ≠ D) →
      (applyStores ops).search q k D = []) := by
  have h := WF_applyStores ops
  constructor
  · intro r hr
    obtain ⟨p, hp, rfl⟩ := mem_search hr
    obtain ⟨cid, hbucket, hfindp⟩ := mem_scoredOf_filtered hD hp
    obtain ⟨e2, he2, hd2⟩ := h.link D cid hbucket
    rw [hfindp] at he2
    cases he2
    have hkey : p.2.chunk_id = cid := h.entry_key cid p.2 hfindp
    refine ⟨p.2, ?_, hd2⟩
    dsimp only
    rw [hkey]
    exact hfindp
  · intro hno
    have hfind : findVal (applyStores ops).doc_index D = none := by
      cases hfind : findVal (applyStores ops).doc_index D with
      | none => rfl
      | some cids =>
          exfalso
          have hne := h.buckets_nonempty D cids hfind
          obtain ⟨cid, hcid⟩ := List.exists_mem_of_ne_nil cids hne
          have hbucket : cid ∈ bucketOf (applyStores ops) D := by
            unfold bucketOf
            rw [hfind]
            exact hcid
          obtain ⟨e, he, hd⟩ := h.link D cid hbucket
          exact hno (cid, e) (mem_of_findVal he) hd
    exact search_of_scored_nil (scoredOf_filtered_none hD hfind q) k

/-! ### Claim C6 -/

theorem search_eq (db : VectorDB) (q : List ℚ) (k : Int) (D : String) :
    db.search q k D = ((List.insertionSort scoreDesc (scoredOf db q D)).take
      (min k ((scoredOf db q D).length : Int)).toNat).map
      (fun p => ⟨p.2.chunk_id, p.1, p.2.text, p.2.metadata⟩) := rfl

theorem dot_product_eq_sum (a b : List ℚ) :
    dot_product a b =
      ∑ i ∈ Finset.range (min a.length b.length), a.getD i 0 * b.getD i 0 := by
  induction a generalizing b with
  | nil => simp [dot_product]
  | cons x xs ih =>
      cases b with
      | nil => simp [dot_product]
      | cons y ys =>
          have : dot_product (x :: xs) (y :: ys) = x * y + dot_product xs ys := by
            simp [dot_product]
          rw [this, ih ys]
          rw [List.length_cons, List.length_cons, Nat.succ_min_succ,
            Finset.sum_range_succ']
          simp [add_comm]

theorem search_perm_all (db : VectorDB) (q : List ℚ) (k : Int) (D : String)
    (hk : ((scoredOf db q D).length : Int) ≤ k) :
    ((db.search q k D).map (fun r => r.chunk_id)).Perm
      ((scoredOf db q D).map (fun p => p.2.chunk_id)) := by
  have hcount : (min k ((scoredOf db q D).length : Int)).toNat =
      (List.insertionSort scoreDesc (scoredOf db q D)).length := by
    rw [min_eq_right hk, Int.toNat_natCast, List.length_insertionSort]
  rw [search_eq, hcount, List.take_length, List.map_map]
  exact (List.perm_insertionSort scoreDesc (scoredOf db q D)).map
    (fun p : ℚ × VectorEntry => p.2.chunk_id)

/-- **C6**: each candidate's score is the dot product of the query embedding
with the candidate's stored embedding, taken over the shorter of the two
lengths; results are sorted by score descending; at most `top_k` results are
returned; `top_k ≤ 0` yields the empty list; `top_k` at least the candidate
count returns all candidates; and an empty store yields the empty list. -/
theorem search_scoring_truncation (db : VectorDB) (q : List ℚ) (k : Int) (D : String) :
    (∀ a b : List ℚ, dot_product a b =
      ∑ i ∈ Finset.range (min a.length b.length), a.getD i 0 * b.getD i 0) ∧
    (∀ r ∈ db.search q k D, ∃ p ∈ scoredOf db q D,
      r.score = dot_product q p.2.embedding ∧ r.chunk_id = p.2.chunk_id) ∧
    List.Pairwise (fun r1 r2 => r2.score ≤ r1.score) (db.search q k D) ∧
    (db.search q k D).length ≤ k.toNat ∧
    (k ≤ 0 → db.search q k D = []) ∧
    (((scoredOf db q D).length : Int) ≤ k →
      ((db.search q k D).map (fun r => r.chunk_id)).Perm
        ((scoredOf db q D).map (fun p => p.2.chunk_id))) ∧
    (db.entries = [] → db.search q k D = []) := by
  refine ⟨dot_product_eq_sum, ?_, ?_, ?_, ?_, ?_, ?_⟩
  · intro r hr
    obtain ⟨p, hp, rfl⟩ := mem_search hr
    exact ⟨p, hp, scoredOf_fst hp, rfl⟩
  · have hsorted : List.Pairwise scoreDesc
        (List.insertionSort scoreDesc (scoredOf db q D)) :=
      List.sorted_insertionSort scoreDesc (scoredOf db q D)
    have htake : List.Pairwise scoreDesc
        ((List.insertionSort scoreDesc (scoredOf db q D)).take
          (min k ((scoredOf db q D).length : Int)).toNat) :=
      List.Pairwise.sublist (List.take_sublist _ _) hsorted
    rw [search_eq, List.pairwise_map]
    exact htake
  · rw [search_eq, List.length_map, List.length_take]
    exact le_trans (Nat.min_le_left _ _) (Int.toNat_le_toNat (min_le_left _ _))
  · intro hk
    have hz : (min k ((scoredOf db q D).length : Int)).toNat = 0 := by
      rw [Int.toNat_eq_zero]
      exact le_trans (min_le_left _ _) hk
    rw [search_eq, hz]
    simp
  · intro hk
    exact search_perm_all db q k D hk
  · intro hent
    exact search_of_scored_nil (scoredOf_of_entries_nil hent q D) k

/-! ### Dispatch reduction lemmas -/

theorem dispatch_of_actionString_none {request : Json}
    (h : actionString request = none) (embedF : String → List ℚ) (db : VectorDB) :
    dispatch embedF db request =
      Except.ok (errorResponse "Missing or invalid \x27action\x27 field", db) := by
  unfold dispatch
  unfold actionString at h
  cases hg : getField request "action" with
  | none => rfl
  | some j =>
      rw [hg] at h
      cases j with
      | str s => exact absurd h (by simp)
      | null => rfl
      | bool b => rfl
      | num q => rfl
      | arr elems => rfl
      | obj fields => rfl

theorem dispatch_of_actionString_some {request : Json} {a : String}
    (h : actionString request = some a) (embedF : String → List ℚ) (db : VectorDB) :
    dispatch embedF db request =
      if a = "store" then handle_store embedF db request
      else if a = "search" then
        (handle_search embedF db request).map (fun resp => (resp, db))
      else Except.ok (errorResponse ("Unknown action: " ++ a), db) := by
  unfold dispatch
  unfold actionString at h
  cases hg : getField request "action" with
  | none =>
      rw [hg] at h
      exact Option.noConfusion h
  | some j =>
      rw [hg] at h
      cases j with
      | str s =>
          have hsa : s = a := by simpa using h
          subst hsa
          rfl
      | null => exact Option.noConfusion h
      | bool b => exact Option.noConfusion h
      | num q => exact Option.noConfusion h
      | arr elems => exact Option.noConfusion h
      | obj fields => exact Option.noConfusion h

theorem getField_searchResponse (rs : List SearchResult) :
    getField (searchResponse rs) "results" = some (Json.arr (rs.map resultJson)) := by
  simp [searchResponse, getField, findVal]

theorem getField_errorResponse_results (msg : String) :
    getField (errorResponse msg) "results" = none := by
  simp [errorResponse, getField, findVal]

/-! ### Claim C1 -/

/-- **C1**: every successful search response carries, for each element of its
`results` array, exactly the fields `chunk_id`, `score` and `text`; the
stored metadata of a matching entry (which `VectorDB::search` does hand to
the server) is never part of the response, whatever metadata was stored. -/
theorem search_response_only_fields (embedF : String → List ℚ) (db : VectorDB)
    (request resp : Json) (elems : List Json)
    (hresp : handle_search embedF db request = Except.ok resp)
    (hres : getField resp "results" = some (Json.arr elems)) :
    ∀ j ∈ elems, ∃ c s t, j =
      Json.obj [("chunk_id", Json.str c), ("score", Json.num s), ("text", Json.str t)] := by
  unfold handle_search at hresp
  by_cases hq : jsonContains request "query"
  · rw [hq] at hresp
    simp only [Bool.not_true, Bool.false_eq_true, if_false] at hresp
    cases hs : asString ((getField request "query").getD Json.null) with
    | none =>
        rw [hs] at hresp
        exact Except.noConfusion hresp
    | some query =>
        rw [hs] at hresp
        cases hk : topKOf request with
        | none =>
            rw [hk] at hresp
            exact Except.noConfusion hresp
        | some top_k =>
            rw [hk] at hresp
            cases hd : docIdOf request with
            | none =>
                rw [hd] at hresp
                exact Except.noConfusion hresp
            | some doc_id_filter =>
                rw [hd] at hresp
                cases hresp
                rw [getField_searchResponse] at hres
                simp only [Option.some.injEq, Json.arr.injEq] at hres
                intro j hj
                rw [← hres] at hj
                obtain ⟨r, -, rfl⟩ := List.mem_map.mp hj
                exact ⟨r.chunk_id, r.score, r.text, rfl⟩
  · rw [Bool.not_eq_true] at hq
    rw [hq] at hresp
    simp only [Bool.not_false, if_true] at hresp
    cases hresp
    rw [getField_errorResponse_results] at hres
    exact Option.noConfusion hres

/-- Witness for C1 at a concrete request and store. -/
theorem search_response_only_fields_witness :
    handle_search (fun _ => []) VectorDB.empty (Json.obj [("query", Json.str "x")]) =
      Except.ok (searchResponse []) ∧
    (∀ j ∈ ([] : List Json), ∃ c s t, j =
      Json.obj [("chunk_id", Json.str c), ("score", Json.num s), ("text", Json.str t)]) :=
  ⟨rfl, search_response_only_fields (fun _ => []) VectorDB.empty
    (Json.obj [("query", Json.str "x")]) (searchResponse []) [] rfl rfl⟩

/-! ### Claim C7 -/

/-- **C7**: a missing or non-string `action`, or an unknown action, yields a
structured error response; a store request missing any of `chunk_id`,
`doc_id`, `text` yields the structured error naming the store requirements,
and an absent `metadata` defaults to the empty object; a search request
missing `query` yields a structured error, and absent `top_k` and `doc_id`
default to `5` and to unfiltered. -/
theorem dispatch_validation (embedF : String → List ℚ) (db : VectorDB) (request : Json) :
    (actionString request = none →
      dispatch embedF db request =
        Except.ok (errorResponse "Missing or invalid \x27action\x27 field", db)) ∧
    (∀ a, actionString request = some a → a ≠ "store" → a ≠ "search" →
      dispatch embedF db request =
        Except.ok (errorResponse ("Unknown action: " ++ a), db)) ∧
    (actionString request = some "store" →
      (jsonContains request "chunk_id" = false ∨ jsonContains request "doc_id" = false ∨
        jsonContains request "text" = false) →
      dispatch embedF db request =
        Except.ok (errorResponse "store requires chunk_id, doc_id, and text", db)) ∧
    (∀ cid did txt, actionString request = some "store" →
      getField request "chunk_id" = some (Json.str cid) →
      getField request "doc_id" = some (Json.str did) →
      getField request "text" = some (Json.str txt) →
      getField request "metadata" = none →
      dispatch embedF db request =
        Except.ok (okResponse, db.store cid did txt (Json.obj []) (embedF txt))) ∧
    (actionString request = some "search" → jsonContains request "query" = false →
      dispatch embedF db request =
        Except.ok (errorResponse "search requires query", db)) ∧
    (∀ qs, actionString request = some "search" →
      getField request "query" = some (Json.str qs) →
      getField request "top_k" = none → getField request "doc_id" = none →
      dispatch embedF db request =
        Except.ok (searchResponse (db.search (embedF qs) 5 ""), db)) := by
  refine ⟨?_, ?_, ?_, ?_, ?_, ?_⟩
  · intro h
    exact dispatch_of_actionString_none h embedF db
  · intro a h hst hse
    rw [dispatch_of_actionString_some h, if_neg hst, if_neg hse]
  · intro h hmiss
    rw [dispatch_of_actionString_some h, if_pos rfl]
    rcases hmiss with h1 | h1 | h1 <;> simp [handle_store, h1]
  · intro cid did txt h hcid hdid htxt hmeta
    rw [dispatch_of_actionString_some h, if_pos rfl]
    simp [handle_store, jsonContains, hcid, hdid, htxt, hmeta, asString]
  · intro h hq
    rw [dispatch_of_actionString_some h, if_neg (by decide), if_pos rfl]
    simp only [handle_search, hq, Bool.not_false, if_true]
    rfl
  · intro qs h hq hk hd
    rw [dispatch_of_actionString_some h, if_neg (by decide), if_pos rfl]
    simp only [handle_search, jsonContains, hq, asString, topKOf, docIdOf, hk, hd,
      Option.isSome_some, Bool.not_true, Bool.false_eq_true, if_false, Option.getD_some]
    rfl

/-- Witness for C7: a request without an action, and a store request without
metadata, at concrete values. -/
theorem dispatch_validation_witness :
    dispatch (fun _ => []) VectorDB.empty (Json.obj []) =
      Except.ok (errorResponse "Missing or invalid \x27action\x27 field", VectorDB.empty) ∧
    dispatch (fun _ => []) VectorDB.empty
      (Json.obj [("action", Json.str "store"), ("chunk_id", Json.str "c"),
        ("doc_id", Json.str "d"), ("text", Json.str "t")]) =
      Except.ok (okResponse, VectorDB.empty.store "c" "d" "t" (Json.obj []) []) :=
  ⟨(dispatch_validation (fun _ => []) VectorDB.empty (Json.obj [])).1 rfl,
    (dispatch_validation (fun _ => []) VectorDB.empty
      (Json.obj [("action", Json.str "store"), ("chunk_id", Json.str "c"),
        ("doc_id", Json.str "d"), ("text", Json.str "t")])).2.2.2.1
      "c" "d" "t" rfl rfl rfl rfl rfl⟩

/-! ### Claim C10 -/

/-- **C10**: a dispatched request whose action is not `store` — in particular
every search request — leaves the store state untouched: the state returned
by `dispatch` is the one passed in.  Only the store action mutates the entry
map and the doc index. -/
theorem search_preserves_store (embedF : String → List ℚ) (db : VectorDB)
    (request resp : Json) (db2 : VectorDB)
    (hact : actionString request ≠ some "store")
    (h : dispatch embedF db request = Except.ok (resp, db2)) : db2 = db := by
  cases hA : actionString request with
  | none =>
      rw [dispatch_of_actionString_none hA] at h
      cases h
      rfl
  | some a =>
      by_cases hst : a = "store"
      · subst hst
        exact absurd hA hact
      · rw [dispatch_of_actionString_some hA, if_neg hst] at h
        by_cases hse : a = "search"
        · rw [if_pos hse] at h
          cases hh : handle_search embedF db request with
          | error e =>
              rw [hh] at h
              exact Except.noConfusion h
          | ok r =>
              rw [hh] at h
              cases h
              rfl
        · rw [if_neg hse] at h
          cases h
          rfl

/-- Witness for C10 at a concrete search request over a one-entry store. -/
theorem search_preserves_store_witness :
    dispatch (fun _ => []) (applyStores [⟨"c", "d", "t", Json.null, []⟩])
      (Json.obj [("action", Json.str "search"), ("query", Json.str "q")]) =
      Except.ok (searchResponse [⟨"c", 0, "t", Json.null⟩],
        applyStores [⟨"c", "d", "t", Json.null, []⟩]) ∧
    applyStores [⟨"c", "d", "t", Json.null, []⟩] =
      applyStores [⟨"c", "d", "t", Json.null, []⟩] :=
  ⟨rfl, search_preserves_store (fun _ => [])
    (applyStores [⟨"c", "d", "t", Json.null, []⟩])
    (Json.obj [("action", Json.str "search"), ("query", Json.str "q")])
    (searchResponse [⟨"c", 0, "t", Json.null⟩])
    (applyStores [⟨"c", "d", "t", Json.null, []⟩])
    (by decide) rfl⟩

/-! ### Claim C4 -/

/-- **C4**: a connection whose 4-byte big-endian declared body length is `0`
or above 10 MiB fails in `read_message` before anything is decoded or
dispatched; the store is unchanged, no exception escapes the connection
handler, and the remaining connections are served exactly as if the bad
connection had never happened. -/
theorem framing_rejects_bad_length (b0 b1 b2 b3 : Fin 256) (rest : List (Fin 256))
    (hbad : declaredLen b0 b1 b2 b3 = 0 ∨ 10 * 1024 * 1024 < declaredLen b0 b1 b2 b3) :
    read_message (b0 :: b1 :: b2 :: b3 :: rest) =
      Except.error ("Invalid message length: " ++ toString (declaredLen b0 b1 b2 b3)) ∧
    (∀ (embedF : String → List ℚ) (parse : List (Fin 256) → Option Json)
        (writeOk : Bool) (db : VectorDB),
      handle_connection embedF parse ⟨b0 :: b1 :: b2 :: b3 :: rest, writeOk⟩ db =
        Except.ok db) ∧
    (∀ (embedF : String → List ℚ) (parse : List (Fin 256) → Option Json)
        (writeOk : Bool) (db : VectorDB) (conns : List Conn),
      runConns embedF parse (⟨b0 :: b1 :: b2 :: b3 :: rest, writeOk⟩ :: conns) db =
        runConns embedF parse conns db) := by
  have hread : read_message (b0 :: b1 :: b2 :: b3 :: rest) =
      Except.error ("Invalid message length: " ++ toString (declaredLen b0 b1 b2 b3)) := by
    show (if declaredLen b0 b1 b2 b3 = 0 ∨ 10 * 1024 * 1024 < declaredLen b0 b1 b2 b3 then
        Except.error ("Invalid message length: " ++ toString (declaredLen b0 b1 b2 b3))
      else if rest.length < declaredLen b0 b1 b2 b3 then
        (Except.error "Failed to read message payload" : Except String (List (Fin 256)))
      else Except.ok (rest.take (declaredLen b0 b1 b2 b3))) = _
    rw [if_pos hbad]
  have hconn : ∀ (embedF : String → List ℚ) (parse : List (Fin 256) → Option Json)
      (writeOk : Bool) (db : VectorDB),
      handle_connection embedF parse ⟨b0 :: b1 :: b2 :: b3 :: rest, writeOk⟩ db =
        Except.ok db := by
    intro embedF parse writeOk db
    unfold handle_connection
    rw [hread]
  refine ⟨hread, hconn, ?_⟩
  intro embedF parse writeOk db conns
  show (match handle_connection embedF parse ⟨b0 :: b1 :: b2 :: b3 :: rest, writeOk⟩ db with
    | Except.ok db2 => runConns embedF parse conns db2
    | Except.error e => Except.error e) = runConns embedF parse conns db
  rw [hconn]

/-- Witness for C4: the declared lengths `0` and `11 * 2^20` (11 MiB) are both
rejected, leaving the store untouched and the rest of the connection sequence
unaffected. -/
theorem framing_rejects_bad_length_witness :
    read_message [0, 0, 0, 0] = Except.error "Invalid message length: 0" ∧
    handle_connection (fun _ => []) (fun _ => none) ⟨[0, 176, 0, 0], true⟩
      VectorDB.empty = Except.ok VectorDB.empty :=
  ⟨(framing_rejects_bad_length 0 0 0 0 [] (Or.inl rfl)).1,
    (framing_rejects_bad_length 0 176 0 0 [] (Or.inr (by decide))).2.1
      (fun _ => []) (fun _ => none) true VectorDB.empty⟩

/-! ### Claim C2 -/

/-- **C2** fails on the code: when a well-framed body is not parseable JSON,
the `parse_error` handler of `Server::handle_connection` writes the error
response *outside* any try/catch, so a write failure there (the peer having
disappeared) throws out of `handle_connection`, out of `Server::run`, and
terminates the process via `main`'s catch with a non-zero status.  This
theorem evaluates the model at such a connection: one byte `0x41` framed with
declared length 1, unparseable, with the response write failing. -/
theorem parse_error_write_failure_terminates :
    runConns (fun _ => []) (fun _ => none) [⟨[0, 0, 0, 1, 65], false⟩]
      VectorDB.empty = Except.error "Failed to write message length" := rfl

/-! ### Claim C8 -/

theorem sum_map_div (l : List ℝ) (c : ℝ) :
    (l.map (fun v => v / c)).sum = l.sum / c := by
  induction l with
  | nil => simp
  | cons x xs ih => simp [add_div, ih]

theorem bump_length (v : List ℕ) (i : ℕ) : (bump v i).length = v.length := by
  simp [bump]

theorem foldl_bump_length (hash : String → ℕ) (toks : List String) (v : List ℕ) :
    (toks.foldl (fun w tok => bump w (hash tok % EMBED_DIM)) v).length = v.length := by
  induction toks generalizing v with
  | nil => rfl
  | cons t ts ih => rw [List.foldl_cons, ih, bump_length]

theorem embedCounts_length (hash : String → ℕ) (text : String) :
    (embedCounts hash text).length = EMBED_DIM := by
  unfold embedCounts
  rw [foldl_bump_length, List.length_replicate]

theorem bump_sum {v : List ℕ} {i : ℕ} (h : i < v.length) :
    (bump v i).sum = v.sum + 1 := by
  induction v generalizing i with
  | nil => simp at h
  | cons x xs ih =>
      cases i with
      | zero =>
          show (((x :: xs).getD 0 0 + 1) :: xs).sum = (x :: xs).sum + 1
          simp [List.sum_cons]
          omega
      | succ i =>
          have h2 : i < xs.length := by simpa using h
          show (x :: bump xs i).sum = (x :: xs).sum + 1
          rw [List.sum_cons, List.sum_cons, ih h2]
          omega

theorem foldl_bump_sum (hash : String → ℕ) (toks : List String) (v : List ℕ)
    (hlen : v.length = EMBED_DIM) :
    (toks.foldl (fun w tok => bump w (hash tok % EMBED_DIM)) v).sum =
      v.sum + toks.length := by
  induction toks generalizing v with
  | nil => simp
  | cons t ts ih =>
      rw [List.foldl_cons, ih _ (by rw [bump_length]; exact hlen),
        bump_sum (by rw [hlen]; exact Nat.mod_lt _ (by decide))]
      rw [List.length_cons]
      omega

theorem embedCounts_sum (hash : String → ℕ) (text : String) :
    (embedCounts hash text).sum = (tokenize text).length := by
  unfold embedCounts
  rw [foldl_bump_sum _ _ _ (List.length_replicate _ _)]
  simp

theorem normSq_nonneg (hash : String → ℕ) (text : String) : 0 ≤ normSq hash text := by
  apply List.sum_nonneg
  intro x hx
  obtain ⟨v, -, rfl⟩ := List.mem_map.mp hx
  exact mul_self_nonneg v

theorem normSq_pos (hash : String → ℕ) {text : String} (htok : tokenize text ≠ []) :
    0 < normSq hash text := by
  have hsum := embedCounts_sum hash text
  have hlenpos : 0 < (tokenize text).length := List.length_pos.mpr htok
  have hex : ∃ n ∈ embedCounts hash text, n ≠ 0 := by
    by_contra hall
    push_neg at hall
    have hz : (embedCounts hash text).sum = 0 := List.sum_eq_zero hall
    omega
  obtain ⟨n, hn, hne⟩ := hex
  have h1 : (1 : ℝ) ≤ (n : ℝ) * (n : ℝ) := by
    have hn1 : 1 ≤ n := Nat.one_le_iff_ne_zero.mpr hne
    have h1n : (1 : ℝ) ≤ (n : ℝ) := by exact_mod_cast hn1
    nlinarith
  have hmem : ((n : ℝ) * (n : ℝ)) ∈ (vecR hash text).map (fun v => v * v) := by
    refine List.mem_map_of_mem _ ?_
    exact List.mem_map_of_mem _ hn
  have hle : ((n : ℝ) * (n : ℝ)) ≤ normSq hash text :=
    List.single_le_sum (fun x hx => by
      obtain ⟨v, -, rfl⟩ := List.mem_map.mp hx
      exact mul_self_nonneg v) _ hmem
  linarith

/-- **C8**: `embed` always returns exactly `EMBED_DIM = 4096` components; if
the text yields at least one token the result is each bucket count divided by
the square root of the sum of squared counts, and its squared L2 norm is `1`;
if the text yields no tokens the result is the all-zero vector, left
unnormalised (the `norm > 0` guard skips the division). -/
theorem embed_properties (hash : String → ℕ) (text : String) :
    (embed hash text).length = EMBED_DIM ∧
    (tokenize text ≠ [] →
      ((embed hash text).map (fun v => v * v)).sum = 1 ∧
      embed hash text = (embedCounts hash text).map
        (fun n : ℕ => (n : ℝ) / Real.sqrt (normSq hash text))) ∧
    (tokenize text = [] → embed hash text = List.replicate EMBED_DIM (0 : ℝ)) := by
  have hlen := embedCounts_length hash text
  have hS0 := normSq_nonneg hash text
  refine ⟨?_, ?_, ?_⟩
  · unfold embed
    by_cases h : 0 < normSq hash text
    · rw [if_pos h, List.length_map]
      unfold vecR
      rw [List.length_map]
      exact hlen
    · rw [if_neg h]
      unfold vecR
      rw [List.length_map]
      exact hlen
  · intro htok
    have hpos := normSq_pos hash htok
    constructor
    · unfold embed
      rw [if_pos hpos, List.map_map]
      have heq : ((vecR hash text).map
          ((fun v => v * v) ∘ (fun v => v / Real.sqrt (normSq hash text)))) =
          (vecR hash text).map (fun v => (v * v) / normSq hash text) := by
        apply List.map_congr_left
        intro v _
        show (v / Real.sqrt (normSq hash text)) * (v / Real.sqrt (normSq hash text)) =
          (v * v) / normSq hash text
        rw [div_mul_div_comm, Real.mul_self_sqrt hS0]
      rw [heq]
      have heq2 : (vecR hash text).map (fun v => (v * v) / normSq hash text) =
          ((vecR hash text).map (fun v => v * v)).map
            (fun v => v / normSq hash text) := by
        rw [List.map_map]
        rfl
      rw [heq2, sum_map_div]
      exact div_self (ne_of_gt hpos)
    · unfold embed
      rw [if_pos hpos]
      unfold vecR
      rw [List.map_map]
      rfl
  · intro htok
    have hc : embedCounts hash text = List.replicate EMBED_DIM 0 := by
      unfold embedCounts
      rw [htok]
      rfl
    have hv : vecR hash text = List.replicate EMBED_DIM (0 : ℝ) := by
      unfold vecR
      rw [hc, List.map_replicate]
      simp
    have hn : normSq hash text = 0 := by
      unfold normSq
      rw [hv, List.map_replicate]
      simp
    unfold embed
    rw [hn, if_neg (lt_irrefl 0), hv]

/-- Witness for C8: a two-token text has unit squared norm; an all-blank text
embeds to the zero vector. -/
theorem embed_properties_witness :
    tokenize "cat sat" ≠ [] ∧
    ((embed (fun _ => 0) "cat sat").map (fun v => v * v)).sum = 1 ∧
    tokenize " .. " = [] ∧
    embed (fun _ => 0) " .. " = List.replicate EMBED_DIM (0 : ℝ) :=
  ⟨by decide, ((embed_properties (fun _ => 0) "cat sat").2.1 (by decide)).1,
    by decide, (embed_properties (fun _ => 0) " .. ").2.2 (by decide)⟩

/-! ### Claim C9 -/

theorem candidateIds_unfiltered (db : VectorDB) :
    candidateIds db "" = db.entries.map Prod.fst := by
  unfold candidateIds
  rw [if_neg (by simp)]

theorem candidateIds_filtered {D : String} (hD : D ≠ "") (db : VectorDB) :
    candidateIds db D =
      (bucketOf db D).filter (fun cid => (findVal db.entries cid).isSome) := by
  unfold candidateIds
  rw [if_pos hD]

theorem filterMap_scored_chunkIds {db : VectorDB} (h : WF db) (q : List ℚ)
    (cids : List String) :
    (cids.filterMap (fun cid => (findVal db.entries cid).map
        (fun e => (dot_product q e.embedding, e)))).map (fun p => p.2.chunk_id) =
      cids.filter (fun cid => (findVal db.entries cid).isSome) := by
  induction cids with
  | nil => rfl
  | cons c cs ih =>
      rw [List.filterMap_cons, List.filter_cons]
      cases hf : findVal db.entries c with
      | none =>
          simp only [Option.map_none', Option.isSome_none, Bool.false_eq_true,
            if_false]
          exact ih
      | some e =>
          simp only [Option.map_some', Option.isSome_some, if_true, List.map_cons]
          rw [ih, h.entry_key c e hf]

/-- The chunk_ids the `scored` vector of `VectorDB::search` actually draws
from are exactly the candidate set. -/
theorem scoredOf_chunkIds {db : VectorDB} (h : WF db) (q : List ℚ) (D : String) :
    (scoredOf db q D).map (fun p => p.2.chunk_id) = candidateIds db D := by
  by_cases hD : D = ""
  · subst hD
    rw [scoredOf_unfiltered, candidateIds_unfiltered, List.map_map]
    refine List.map_congr_left (fun p hp => ?_)
    show p.2.chunk_id = p.1
    exact h.entry_key p.1 p.2 (findVal_of_mem h.entries_nodup
      (by cases p with | mk a b => exact hp))
  · rw [candidateIds_filtered hD]
    cases hfind : findVal db.doc_index D with
    | none =>
        rw [scoredOf_filtered_none hD hfind]
        unfold bucketOf
        rw [hfind]
        rfl
    | some cids =>
        have hbucket : bucketOf db D = cids := by
          unfold bucketOf
          rw [hfind]
          rfl
        rw [scoredOf_filtered_some hD hfind, hbucket]
        exact filterMap_scored_chunkIds h q cids

/-- **C9 counterexample**: with a store holding exactly one entry, stored
under doc_id `""`, the unfiltered search call (the only way to reach that
entry) has candidate set exactly the empty-string document's chunk list —
refuting "there is no search call whose candidate set is exactly the
empty-string document's chunks". -/
theorem empty_docid_sentinel_cex :
    (scoredOf (applyStores [⟨"c1", "", "t", Json.null, []⟩]) [] "").map
        (fun p => p.2.chunk_id) =
      bucketOf (applyStores [⟨"c1", "", "t", Json.null, []⟩]) "" ∧
    bucketOf (applyStores [⟨"c1", "", "t", Json.null, []⟩]) "" = ["c1"] := by
  constructor <;> rfl

/-- **C9** (amended): an entry stored under doc_id `""` appears in unfiltered
search results, and no filtered search can select it by doc_id, since the
empty filter string is the no-filter sentinel; consequently, for every
store state that also holds an entry of some other document, no search call
has candidate set exactly the empty-string document's chunks.  (As stated the
claim fails when every stored entry belongs to doc_id `""`; see the
counterexample.) -/
theorem empty_docid_sentinel (ops : List StoreOp) (cid0 cid1 : String)
    (e0 e1 : VectorEntry)
    (h0 : findVal (applyStores ops).entries cid0 = some e0) (h0d : e0.doc_id = "")
    (h1 : findVal (applyStores ops).entries cid1 = some e1) (h1d : e1.doc_id ≠ "") :
    (∀ q : List ℚ, scoredOf (applyStores ops) q "" =
      (applyStores ops).entries.map (fun p => (dot_product q p.2.embedding, p.2))) ∧
    (∀ (q : List ℚ) (k : Int), (((applyStores ops).entries.length : Int) ≤ k) →
      cid0 ∈ ((applyStores ops).search q k "").map (fun r => r.chunk_id)) ∧
    (∀ (q : List ℚ) (D : String),
      (scoredOf (applyStores ops) q D).map (fun p => p.2.chunk_id) =
        candidateIds (applyStores ops) D) ∧
    (∀ D : String, ¬ (∀ cid, cid ∈ candidateIds (applyStores ops) D ↔
      cid ∈ bucketOf (applyStores ops) "")) := by
  have h := WF_applyStores ops
  refine ⟨fun q => scoredOf_unfiltered _ q, ?_, fun q D => scoredOf_chunkIds h q D, ?_⟩
  · intro q k hk
    have hlen : ((scoredOf (applyStores ops) q "").length : Int) =
        (((applyStores ops).entries.length : Nat) : Int) := by
      rw [scoredOf_unfiltered, List.length_map]
    have hperm := search_perm_all (applyStores ops) q k "" (by rw [hlen]; exact hk)
    rw [hperm.mem_iff, scoredOf_chunkIds h q "", candidateIds_unfiltered]
    exact List.mem_map.mpr ⟨(cid0, e0), mem_of_findVal h0, rfl⟩
  · intro D hiff
    by_cases hD : D = ""
    · subst hD
      have hmem : cid1 ∈ candidateIds (applyStores ops) "" := by
        rw [candidateIds_unfiltered]
        exact List.mem_map.mpr ⟨(cid1, e1), mem_of_findVal h1, rfl⟩
      have hb := (hiff cid1).mp hmem
      obtain ⟨e, he, hd⟩ := h.link "" cid1 hb
      rw [h1] at he
      cases he
      exact h1d hd
    · have hb0 : cid0 ∈ bucketOf (applyStores ops) "" := by
        have hlinked := h.entry_linked cid0 e0 h0
        rw [h0d] at hlinked
        exact hlinked
      have hmem := (hiff cid0).mpr hb0
      rw [candidateIds_filtered hD] at hmem
      have hbD : cid0 ∈ bucketOf (applyStores ops) D := List.mem_of_mem_filter hmem
      obtain ⟨e, he, hd⟩ := h.link D cid0 hbD
      rw [h0] at he
      cases he
      rw [h0d] at hd
      exact hD hd.symm

/-- Witness for C9 at a two-document store. -/
theorem empty_docid_sentinel_witness :
    ¬ (∀ cid, cid ∈ candidateIds
        (applyStores [⟨"c0", "", "t0", Json.null, []⟩, ⟨"c1", "d1", "t1", Json.null, []⟩])
        "d1" ↔
      cid ∈ bucketOf
        (applyStores [⟨"c0", "", "t0", Json.null, []⟩, ⟨"c1", "d1", "t1", Json.null, []⟩])
        "") :=
  (empty_docid_sentinel
    [⟨"c0", "", "t0", Json.null, []⟩, ⟨"c1", "d1", "t1", Json.null, []⟩]
    "c0" "c1" ⟨"c0", "", "t0", Json.null, []⟩ ⟨"c1", "d1", "t1", Json.null, []⟩
    rfl rfl rfl (by decide)).2.2.2 "d1"

/-- Witness for C3: overwriting `"c"` under a new doc_id at a concrete store. -/
theorem store_invariants_witness :
    ((((applyStores [⟨"c", "d1", "t", Json.null, []⟩]).store "c" "d2" "t2"
        Json.null []).entries.map Prod.fst).count "c" = 1) ∧
    "c" ∈ bucketOf ((applyStores [⟨"c", "d1", "t", Json.null, []⟩]).store "c" "d2" "t2"
        Json.null []) "d2" :=
  ⟨((store_invariants [⟨"c", "d1", "t", Json.null, []⟩]).2.2.2 "c" "d2" "t2"
      Json.null [] ⟨"c", "d1", "t", Json.null, []⟩ rfl).1,
    (((store_invariants [⟨"c", "d1", "t", Json.null, []⟩]).2.2.2 "c" "d2" "t2"
      Json.null [] ⟨"c", "d1", "t", Json.null, []⟩ rfl).2.2 (by decide)).2⟩

/-- Witness for C5: filtering on an unknown doc_id yields the empty list. -/
theorem search_filtered_isolation_witness :
    (applyStores [⟨"c0", "d0", "t0", Json.null, []⟩]).search [] 5 "dX" = [] :=
  (search_filtered_isolation [⟨"c0", "d0", "t0", Json.null, []⟩] [] 5 "dX"
    (by decide)).2 (by decide)

/-- Witness for C6: negative `top_k` yields the empty list, and a `top_k`
above the candidate count returns all candidates. -/
theorem search_scoring_truncation_witness :
    (applyStores [⟨"a", "d", "ta", Json.null, [1]⟩]).search [1] (-1) "" = [] ∧
    (((applyStores [⟨"a", "d", "ta", Json.null, [1]⟩]).search [1] 5 "").map
        (fun r => r.chunk_id)).Perm
      ((scoredOf (applyStores [⟨"a", "d", "ta", Json.null, [1]⟩]) [1] "").map
        (fun p => p.2.chunk_id)) :=
  ⟨(search_scoring_truncation (applyStores [⟨"a", "d", "ta", Json.null, [1]⟩])
      [1] (-1) "").2.2.2.2.1 (by decide),
    (search_scoring_truncation (applyStores [⟨"a", "d", "ta", Json.null, [1]⟩])
      [1] 5 "").2.2.2.2.2.1 (by decide)⟩
